import Mathlib

/-!
Verification of the terminal-UI core of `qbtui.py` (class `QBittorrentTUI`).

Shallow embedding conventions:
* Python strings are modelled as `List Char` (or `String` where the value is
  only compared for equality).
* Python non-negative ints are modelled as `Nat`; `max(0, a - b)` on such
  ints is exactly `Nat` subtraction.
* The curses screen is not modelled; what each component writes (lines of
  text, events in order) is modelled as explicit data.
* Fallible code (Python exceptions) is modelled with `Option`: `none` means
  an exception escapes the function.
-/

/-! ### Bounded renderer: `safe_addstr` (qbtui.py lines 98-142)

`text.splitlines()` is modelled as splitting on `'\n'` (the only line
separator the rest of the program ever produces). -/

/-- Helper for `splitLines`: accumulates the current line (reversed). -/
def splitLinesAux : List Char → List Char → List (List Char)
  | [], [] => []
  | [], acc => [acc.reverse]
  | '\n' :: rest, acc => acc.reverse :: splitLinesAux rest []
  | c :: rest, acc => splitLinesAux rest (c :: acc)

/-- `text.splitlines()`: like Python, a trailing newline does not produce a
trailing empty line, and the empty text has no lines. -/
def splitLines (text : List Char) : List (List Char) :=
  splitLinesAux text []

/-- The wrap loop of `safe_addstr` (lines 113-126): while the line is longer
than the screen width, emit a `width`-sized segment; finally emit the
remainder.  The conjunct `0 < width` is required for termination: for
`width = 0` the Python loop `while len(line) > width` does not terminate
(the slice `line[0:]` leaves `line` unchanged), so that case is outside the
model; the theorems about wrapping assume `0 < width`. -/
def wrapLine (width : Nat) (line : List Char) : List (List Char) :=
  if _h : 0 < width ∧ width < line.length then
    line.take width :: wrapLine width (line.drop width)
  else
    [line]
termination_by line.length
decreasing_by
  simp only [List.length_drop]
  omega

/-- The list of output lines produced by `safe_addstr(stdscr, text, wrap=True,
start_newline)`: each logical line of `text` is wrapped, and one empty line is
appended when `start_newline` is true (line 136-140). -/
def safe_addstr_wrap (width : Nat) (text : List Char) (start_newline : Bool) :
    List (List Char) :=
  ((splitLines text).map (wrapLine width)).flatten ++
    (if start_newline then [[]] else [])

/-! ### Scrollable selector: `scrollable_select` (qbtui.py lines 356-443) -/

/-- The key events the selector reacts to.  `q` and ESC are `quit`/`esc`,
`k`/`j` coincide with `up`/`down` (lines 417, 423); any other key is
`other` and leaves the state unchanged (no matching `elif`). -/
inductive Key where
  | up | down | pageUp | pageDown | home | endKey | enter | quit | esc | other
deriving DecidableEq, Repr

/-- The mutable loop state of `scrollable_select`: `selected_idx` and
`top_line` (lines 373-374). -/
structure SelState where
  selected : Nat
  top : Nat
deriving DecidableEq, Repr

/-- One navigation transition of `scrollable_select` (lines 417-443);
`len` is `len(items)` and `maxLines` is `max_lines = height - 4`
(the model assumes `height ≥ 4` so that `max_lines` is a natural). -/
def navStep (len maxLines : Nat) (s : SelState) : Key → SelState
  | .up =>
    let sel := s.selected - 1
    ⟨sel, if sel < s.top then sel else s.top⟩
  | .down =>
    let sel := min (len - 1) (s.selected + 1)
    ⟨sel, if s.top + maxLines ≤ sel then sel - maxLines + 1 else s.top⟩
  | .pageUp =>
    let sel := s.selected - maxLines
    ⟨sel, if sel < s.top then sel else s.top⟩
  | .pageDown =>
    let sel := min (len - 1) (s.selected + maxLines)
    ⟨sel, if s.top + maxLines ≤ sel then sel - maxLines + 1 else s.top⟩
  | .home => ⟨0, 0⟩
  | .endKey => ⟨len - 1, len - maxLines⟩
  | _ => s

/-- The value `scrollable_select` returns: `-1` (cancelled) or the selected
index. -/
inductive SelResult where
  | cancelled
  | chosen (i : Nat)
deriving DecidableEq, Repr

/-- The Python return value: `-1` for cancellation, otherwise the index. -/
def SelResult.toInt : SelResult → Int
  | .cancelled => -1
  | .chosen i => i

/-- Keys that terminate the selection loop. -/
def Key.isTerminal : Key → Bool
  | .enter | .quit | .esc => true
  | _ => false

/-- The `while True` loop of `scrollable_select`, driven by the (finite) list
of key events read by `stdscr.getch()`.  Returns the result together with the
number of keys read; `none` means the key sequence ran out with the loop
still blocked on `getch()`. -/
def selLoop (len maxLines : Nat) : SelState → List Key → Option (SelResult × Nat)
  | _, [] => none
  | s, k :: ks =>
    match k with
    | .quit => some (.cancelled, 1)
    | .esc => some (.cancelled, 1)
    | .enter => some (.chosen s.selected, 1)
    | k =>
      (selLoop len maxLines (navStep len maxLines s k) ks).map
        (fun rn => (rn.1, rn.2 + 1))

/-- `scrollable_select(stdscr, items, title)`: an empty `items` list returns
`-1` before the loop (lines 370-371); otherwise the loop starts from
`selected_idx = top_line = 0`. -/
def scrollable_select (maxLines : Nat) (items : List String) (keys : List Key) :
    Option (SelResult × Nat) :=
  if items.isEmpty then some (.cancelled, 0)
  else selLoop items.length maxLines ⟨0, 0⟩ keys

/-- The `SelectionState` invariants of spec §3. -/
def SelInv (len maxLines : Nat) (s : SelState) : Prop :=
  s.selected < len ∧ s.top ≤ s.selected ∧ s.selected < s.top + maxLines

instance (len maxLines : Nat) (s : SelState) : Decidable (SelInv len maxLines s) :=
  inferInstanceAs (Decidable (_ ∧ _ ∧ _))

/-- What a caller that treats negative results as cancellation may rely on:
either the selection was cancelled (Python `-1`), or the chosen index is in
bounds.  A run that never terminates (`none`) is excluded. -/
def resultOk (len : Nat) : Option (SelResult × Nat) → Prop
  | some (.cancelled, _) => True
  | some (.chosen i, _) => i < len
  | none => False

/-! ### Progress indicator: `draw_progress_bar` (qbtui.py lines 144-186)

The Python code computes `percentage` with IEEE-754 binary64 (double)
arithmetic.  The model represents each double by its exact rational value
and models each arithmetic operation as the exact operation followed by
`roundD`, rounding to 53 significant bits with round-to-nearest, ties to
even — the binary64 rounding in the normal range.  Operand conversions
`float(current)`, `float(total)`, `float(bar_length)` are modelled as exact
(true whenever the value is at most 2^53).  `int()` on the non-negative
floats arising here is the floor. -/

/-- `⌊log₂ n⌋` for `n ≥ 1` (0 at 0), by structural recursion on a fuel
argument so that it evaluates inside the kernel. -/
def natLog2 (n : Nat) : Nat :=
  go n n
where
  /-- Halve until below 2; the fuel `n` always suffices. -/
  go : Nat → Nat → Nat
    | 0, _ => 0
    | fuel + 1, n => if 2 ≤ n then go fuel (n / 2) + 1 else 0

/-- `⌊log₂ q⌋` for a positive rational, via the integer `log2`s of
numerator and denominator. -/
def ratLog2 (q : ℚ) : Int :=
  let a : Int := natLog2 q.num.toNat
  let b : Int := natLog2 q.den
  if q < pow2 (a - b) then a - b - 1 else a - b
where
  /-- `2 ^ e` as a rational, for an integer exponent. -/
  pow2 : Int → ℚ
    | .ofNat n => ((2 ^ n : Nat) : ℚ)
    | .negSucc n => 1 / ((2 ^ (n + 1) : Nat) : ℚ)

/-- Nearest integer to a rational, ties to the even integer. -/
def roundHalfEven (x : ℚ) : Int :=
  let m := ⌊x⌋
  let fr2 := x * 2 - 2 * m
  if fr2 < 1 then m
  else if 1 < fr2 then m + 1
  else if m % 2 = 0 then m else m + 1

/-- Binary64 round-to-nearest-even of a non-negative rational in the normal
range: the value is scaled so that its significand lies in `[2^52, 2^53)`,
rounded half-to-even, and scaled back. -/
def roundD (q : ℚ) : ℚ :=
  if q ≤ 0 then 0
  else
    let ulp := ratLog2.pow2 (ratLog2 q - 52)
    (roundHalfEven (q / ulp) : ℚ) * ulp

/-- `percentage = float(current)/float(total) if total != 0 else 0`
(lines 157-159): one rounded division. -/
def progressPercentage (current total : Nat) : ℚ :=
  if total ≠ 0 then roundD ((current : ℚ) / (total : ℚ)) else 0

/-- `filled_length = int(bar_length * percentage)` (line 160): one rounded
multiplication, then truncation.  When `total = 0`, `percentage` is the int
`0` and the product is exact in Python too; `roundD 0 = 0` agrees. -/
def filled_length (current total bar_length : Nat) : Nat :=
  (⌊roundD ((bar_length : ℚ) * progressPercentage current total)⌋).toNat

/-- `bar = "=" * filled_length + "-" * (bar_length - filled_length)`
(line 161).  Python's `"-" * n` is empty for `n ≤ 0`, matching `Nat`
subtraction. -/
def progress_bar (current total bar_length : Nat) : String :=
  String.mk (List.replicate (filled_length current total bar_length) '=' ++
    List.replicate (bar_length - filled_length current total bar_length) '-')

/-- `percent_text = f"{int(percentage * 100)}%"` (line 162): one rounded
multiplication, then truncation. -/
def percent_text (current total : Nat) : String :=
  toString (⌊roundD (progressPercentage current total * 100)⌋) ++ "%"

/-! ### Aggregator: `aggregate_trackers_for_each_torrent` (qbtui.py
lines 463-492) -/

/-- A torrent record as used by the aggregator: its `"hash"` and `"name"`
fields. -/
structure Torrent where
  hash : String
  name : String
deriving DecidableEq, Repr

/-- `tracker_map` is a Python dict from tracker URL to list of torrent
hashes; modelled as an insertion-ordered association list. -/
abbrev TrackerMap := List (String × List String)

/-- The body of the inner loop (lines 485-489): if the URL is not yet a key,
insert it with an empty list; then append the torrent's hash to its list.
A Python dict has unique keys, so updating every entry whose key matches is
the same as updating the (unique) matching entry. -/
def mapAppend (m : TrackerMap) (url h : String) : TrackerMap :=
  if m.any (fun p => p.1 == url) then
    m.map (fun p => if p.1 == url then (p.1, p.2 ++ [h]) else p)
  else
    m ++ [(url, [h])]

/-- `tracker_map[url]`, with `[]` for a missing key (the dict read pattern
used by the callers of the aggregator). -/
def mapGet (m : TrackerMap) (url : String) : List String :=
  match m.find? (fun p => p.1 == url) with
  | some p => p.2
  | none => []

/-- Observable events of the aggregation loop, in program order:
a progress-bar draw call `draw idx total` (line 482) and a tracker lookup
`lookupEv idx hash` (line 484, `get_torrent_trackers(torrent["hash"])`).
The index `idx` is the 1-based loop counter `enumerate(torrents, start=1)`
of the iteration that emitted the event. -/
inductive AggEvent where
  | draw (idx total : Nat)
  | lookupEv (idx : Nat) (hash : String)
deriving DecidableEq, Repr

/-- The loop of `aggregate_trackers_for_each_torrent` (lines 479-489),
returning the final `tracker_map` together with the emitted event trace.
`lookup` models `get_torrent_trackers` (restricted to the `"url"` fields it
returns); `total` is `total_torrents` and `idx` the 1-based counter. -/
def aggRun (lookup : String → List String) (total : Nat) :
    Nat → List Torrent → TrackerMap → TrackerMap × List AggEvent
  | _, [], m => (m, [])
  | idx, t :: ts, m =>
    let m' := (lookup t.hash).foldl (fun acc url => mapAppend acc url t.hash) m
    let rest := aggRun lookup total (idx + 1) ts m'
    (rest.1, .draw idx total :: .lookupEv idx t.hash :: rest.2)

/-- `aggregate_trackers_for_each_torrent(stdscr, torrents)`: the returned
`tracker_map`, starting from the empty dict (line 478). -/
def aggregate_trackers_for_each_torrent (lookup : String → List String)
    (torrents : List Torrent) : TrackerMap :=
  (aggRun lookup torrents.length 1 torrents []).1

/-- The event trace of one call of the aggregator. -/
def aggTrace (lookup : String → List String) (torrents : List Torrent) :
    List AggEvent :=
  (aggRun lookup torrents.length 1 torrents []).2

/-- Lexicographic `≤` on strings as code-point sequences: the order Python's
`sorted` uses on `str`. -/
def charListLe : List Char → List Char → Bool
  | [], _ => true
  | _ :: _, [] => false
  | a :: xs, b :: ys =>
    if a.toNat < b.toNat then true
    else if b.toNat < a.toNat then false
    else charListLe xs ys

/-- Insertion into a sorted list of strings, the building block for
`sorted(...)`. -/
def insertSorted (x : String) : List String → List String
  | [] => [x]
  | y :: ys =>
    if charListLe x.data y.data then x :: y :: ys else y :: insertSorted x ys

/-- `sorted(tracker_map.keys())` (qbtui.py line 528): the keys in ascending
lexicographic order. -/
def sortStrings (l : List String) : List String :=
  l.foldr insertSorted []

/-- The display list of `remove_tracker` (line 528): the tracker keys after
the stable ascending sort. -/
def displayedKeys (m : TrackerMap) : List String :=
  sortStrings (m.map (fun p => p.1))

/-! ### URL handling: `validate_url` / `normalize_url` (qbtui.py
lines 188-240)

Both functions call `urllib.parse.urlparse` and read only `parsed.scheme`
and `parsed.netloc`; those two components of CPython's `urlsplit` are
modelled here.  `urlsplit` raises `ValueError` on a netloc with unbalanced
square brackets; a raised exception is modelled as `none`. -/

/-- The characters CPython allows in a URL scheme
(`scheme_chars` in `urllib/parse.py`). -/
def isSchemeChar (c : Char) : Bool :=
  c.isAlpha || c.isDigit || c == '+' || c == '-' || c == '.'

/-- CPython's `urlsplit` first removes `'\t'`, `'\r'` and `'\n'` anywhere in
the URL (`_UNSAFE_URL_BYTES_TO_REMOVE`). -/
def cleanUrlChars (url : List Char) : List Char :=
  url.filter (fun c => !(c == '\t' || c == '\r' || c == '\n'))

/-- The scheme split of `urlsplit`: if the first `':'` is at position
`i > 0`, the first character is an ASCII letter and everything before the
colon is a scheme character, the scheme is that prefix lowercased and the
rest follows the colon; otherwise the scheme is empty. -/
def splitScheme (url : List Char) : List Char × List Char :=
  let pre := url.takeWhile (fun c => c != ':')
  if pre.length < url.length && !pre.isEmpty &&
      (pre.headD ' ').isAlpha && pre.all isSchemeChar then
    (pre.map Char.toLower, url.drop (pre.length + 1))
  else
    ([], url)

/-- The characters ending the netloc in `_splitnetloc`. -/
def netlocDelim (c : Char) : Bool :=
  c == '/' || c == '?' || c == '#'

/-- The bracket sanity check of `urlsplit`: `'['` without `']'` or
vice-versa raises `ValueError`. -/
def bracketBad (netloc : List Char) : Bool :=
  (netloc.contains '[' && !netloc.contains ']') ||
    (netloc.contains ']' && !netloc.contains '[')

/-- The netloc split of `urlsplit`: only a rest starting with `"//"` has a
netloc, running to the first `/`, `?` or `#`; `none` is the `ValueError` on
unbalanced brackets. -/
def splitNetloc (rest : List Char) : Option (List Char) :=
  match rest with
  | c1 :: c2 :: r =>
    if c1 = '/' ∧ c2 = '/' then
      let netloc := r.takeWhile (fun c => !netlocDelim c)
      if bracketBad netloc then none else some netloc
    else some []
  | _ => some []

/-- The two components of `urlparse` that `validate_url` reads. -/
structure ParsedUrl where
  scheme : List Char
  netloc : List Char
deriving DecidableEq, Repr

/-- `urlparse` on an already-cleaned character list. -/
def parseResult (w : List Char) : Option ParsedUrl :=
  match splitNetloc (splitScheme w).2 with
  | none => none
  | some netloc => some ⟨(splitScheme w).1, netloc⟩

/-- `urllib.parse.urlparse`, restricted to scheme and netloc. -/
def pyUrlparse (url : List Char) : Option ParsedUrl :=
  parseResult (cleanUrlChars url)

/-- `validate_url(self, input_url)` (lines 188-211): `(False, msg)` for an
empty URL, a missing scheme or a missing netloc, else `(True, "")`;
`none` when `urlparse` raises. -/
def validate_url (input_url : List Char) : Option (Bool × String) :=
  if input_url.isEmpty then
    some (false, "The URL is empty.")
  else
    match pyUrlparse input_url with
    | none => none
    | some p =>
      if p.scheme.isEmpty then
        some (false, "The URL is missing a scheme (e.g., http or https).")
      else if p.netloc.isEmpty then
        some (false, "The URL is missing a valid domain or IP address.")
      else
        some (true, "")

/-- `input_url.rstrip("/")`: remove every trailing `'/'`. -/
def rstripSlashes (s : List Char) : List Char :=
  (s.reverse.dropWhile (fun c => c == '/')).reverse

/-- `normalize_url(self, input_url, default_scheme)` (lines 213-240):
empty input gives `""`; a valid input is returned with trailing slashes
stripped; otherwise, if the scheme is missing, `default_scheme + "://"` is
prefixed and validation retried; any remaining failure gives `""`. -/
def normalize_url (input_url default_scheme : List Char) : Option (List Char) :=
  if input_url.isEmpty then some []
  else
    match validate_url input_url with
    | none => none
    | some (true, _) => some (rstripSlashes input_url)
    | some (false, _) =>
      match pyUrlparse input_url with
      | none => none
      | some p =>
        if p.scheme.isEmpty then
          let newUrl := default_scheme ++ ':' :: '/' :: '/' :: input_url
          match validate_url newUrl with
          | none => none
          | some (true, _) => some (rstripSlashes newUrl)
          | some (false, _) => some []
        else some []

/-- A cleaned character list parses with non-empty scheme and netloc — the
condition under which `validate_url` answers `(True, "")`. -/
def parseOk (w : List Char) : Prop :=
  ∃ p, parseResult w = some p ∧ p.scheme ≠ [] ∧ p.netloc ≠ []

/-- The explicit decomposition of a character list that parses with
non-empty scheme and netloc: a valid scheme prefix, `"://"`, a first netloc
character that is no delimiter, and a bracket-balanced netloc. -/
def ParseShape (w : List Char) : Prop :=
  ∃ pre d r', w = pre ++ ':' :: '/' :: '/' :: d :: r' ∧
    pre ≠ [] ∧ (pre.headD ' ').isAlpha = true ∧ pre.all isSchemeChar = true ∧
    netlocDelim d = false ∧
    bracketBad (d :: r'.takeWhile (fun c => !netlocDelim c)) = false

/-- The concrete 3-parent lookup table of the spec §8 scenario: parent `p1`
has children `["t1", "t2"]`, parent `p2` has `["t1"]`, parent `p3` none. -/
def scenarioLookup (h : String) : List String :=
  if h = "p1" then ["t1", "t2"]
  else if h = "p2" then ["t1"]
  else []

/-- The three parent records of the spec §8 scenario. -/
def scenarioTorrents : List Torrent :=
  [⟨"p1", "parent 1"⟩, ⟨"p2", "parent 2"⟩, ⟨"p3", "parent 3"⟩]

/-! ## Helper lemmas: bounded renderer -/

theorem wrapLine_ne_nil (width : Nat) (line : List Char) :
    wrapLine width line ≠ [] := by
  rw [wrapLine]
  split <;> simp

theorem wrapLine_flatten (width : Nat) (line : List Char) :
    (wrapLine width line).flatten = line := by
  induction line using wrapLine.induct width with
  | case1 line h ih =>
    rw [wrapLine, dif_pos h]
    simp only [List.flatten_cons, ih, List.take_append_drop]
  | case2 line h =>
    rw [wrapLine, dif_neg h]
    simp

theorem wrapLine_length_le (width : Nat) (hw : 0 < width) (line : List Char) :
    ∀ s ∈ wrapLine width line, s.length ≤ width := by
  induction line using wrapLine.induct width with
  | case1 line h ih =>
    rw [wrapLine, dif_pos h]
    intro s hs
    rcases List.mem_cons.1 hs with rfl | hs
    · simp [List.length_take]
    · exact ih s hs
  | case2 line h =>
    rw [wrapLine, dif_neg h]
    intro s hs
    rcases List.mem_singleton.1 hs with rfl
    omega

theorem wrapLine_dropLast (width : Nat) (line : List Char) :
    ∀ s ∈ (wrapLine width line).dropLast, s.length = width := by
  induction line using wrapLine.induct width with
  | case1 line h ih =>
    rw [wrapLine, dif_pos h]
    rw [List.dropLast_cons_of_ne_nil (wrapLine_ne_nil width _)]
    intro s hs
    rcases List.mem_cons.1 hs with rfl | hs
    · simp [List.length_take]
      omega
    · exact ih s hs
  | case2 line h =>
    rw [wrapLine, dif_neg h]
    simp

/-! ## Helper lemmas: scrollable selector -/

theorem navStep_selected_lt (len maxLines : Nat) (hlen : 0 < len) (s : SelState)
    (hs : s.selected < len) (k : Key) :
    (navStep len maxLines s k).selected < len := by
  cases k <;> simp [navStep] <;> omega

theorem resultOk_bump (len : Nat) (o : Option (SelResult × Nat))
    (h : resultOk len o) :
    resultOk len (o.map (fun rn => (rn.1, rn.2 + 1))) := by
  match o with
  | none => exact h.elim
  | some (.cancelled, n) => trivial
  | some (.chosen i, n) => exact h

theorem selLoop_ok (len maxLines : Nat) (k : Key) (hk : k.isTerminal = true) :
    ∀ (ks : List Key) (s : SelState), s.selected < len →
      resultOk len (selLoop len maxLines s (ks ++ [k])) := by
  intro ks
  induction ks with
  | nil =>
    intro s hs
    cases k <;> simp [Key.isTerminal] at hk <;> simp [selLoop, resultOk, hs]
  | cons k' ks ih =>
    intro s hs
    have hlen : 0 < len := by omega
    cases k' <;>
      first
        | (simp [selLoop, resultOk, hs]; done)
        | (simp only [List.cons_append, selLoop]
           exact resultOk_bump len _
             (ih _ (navStep_selected_lt len maxLines hlen s hs _)))

theorem navStep_inv_updown (len maxLines : Nat) (hV : 0 < maxLines)
    (s : SelState) (hs : SelInv len maxLines s) (k : Key)
    (hk : k = Key.up ∨ k = Key.down) :
    SelInv len maxLines (navStep len maxLines s k) := by
  obtain ⟨h1, h2, h3⟩ := hs
  rcases hk with rfl | rfl
  · simp only [navStep, SelInv]
    split <;> exact ⟨by omega, by omega, by omega⟩
  · simp only [navStep, SelInv]
    split <;> exact ⟨by omega, by omega, by omega⟩

theorem selInv_foldl (len maxLines : Nat) (hV : 0 < maxLines) :
    ∀ (ks : List Key) (s : SelState), SelInv len maxLines s →
      (∀ k ∈ ks, k = Key.up ∨ k = Key.down) →
      SelInv len maxLines (ks.foldl (navStep len maxLines) s) := by
  intro ks
  induction ks with
  | nil => intro s hs _; exact hs
  | cons k ks ih =>
    intro s hs hud
    simp only [List.foldl_cons]
    exact ih _
      (navStep_inv_updown len maxLines hV s hs k (hud k (List.mem_cons_self k ks)))
      (fun k' hk' => hud k' (List.mem_cons_of_mem _ hk'))

/-! ## Claim theorems -/

/-- C1, counterexample: with 100 items and `visible_rows = 10`, nine
page-down presses from `selected_index = top_index = 0` do NOT yield
`selected_index = 90 ∧ top_index = 90`: the code sets
`top_line = selected_idx - max_lines + 1 = 81`, not 90. -/
theorem c1_counterexample :
    ¬ (((List.replicate 9 Key.pageDown).foldl (navStep 100 10) ⟨0, 0⟩).selected = 90 ∧
       ((List.replicate 9 Key.pageDown).foldl (navStep 100 10) ⟨0, 0⟩).top = 90) := by
  decide

/-- C1, amended: with 100 items and `visible_rows = 10`, nine page-down
presses from `selected_index = top_index = 0` yield `selected_index = 90`
(clamped at 99 on overshoot) and `top_index = 81`. -/
theorem c1_pagedown_scenario :
    (List.replicate 9 Key.pageDown).foldl (navStep 100 10) ⟨0, 0⟩ =
      (⟨90, 81⟩ : SelState) := by
  decide

/-- C3: for every text and every positive surface width, `safe_addstr` with
`wrap=True` emits no line longer than the width; each logical line is emitted
as width-sized segments (all segments but the last have length exactly
`width`) whose concatenation is the whole line, with the remainder as the
final segment. -/
theorem c3_wrap_bounded (text : List Char) (width : Nat) (start_newline : Bool)
    (hw : 0 < width) :
    (∀ l ∈ safe_addstr_wrap width text start_newline, l.length ≤ width) ∧
    (∀ line ∈ splitLines text,
      (wrapLine width line).flatten = line ∧
      (∀ s ∈ (wrapLine width line).dropLast, s.length = width) ∧
      wrapLine width line ≠ []) := by
  constructor
  · intro l hl
    rcases List.mem_append.1 hl with hl | hl
    · rcases List.mem_flatten.1 hl with ⟨seg, hseg, hls⟩
      rcases List.mem_map.1 hseg with ⟨line, hline, rfl⟩
      exact wrapLine_length_le width hw line l hls
    · rcases start_newline with _ | _ <;> simp_all
  · intro line hline
    exact ⟨wrapLine_flatten width line, wrapLine_dropLast width line,
      wrapLine_ne_nil width line⟩

/-- Witness for C3 at `text = "abcd"`, `width = 3`. -/
theorem c3_wrap_bounded_witness :
    0 < 3 ∧
    ((∀ l ∈ safe_addstr_wrap 3 "abcd".toList true, l.length ≤ 3) ∧
     (∀ line ∈ splitLines "abcd".toList,
        (wrapLine 3 line).flatten = line ∧
        (∀ s ∈ (wrapLine 3 line).dropLast, s.length = 3) ∧
        wrapLine 3 line ≠ [])) :=
  ⟨by decide, c3_wrap_bounded "abcd".toList 3 true (by decide)⟩

/-- C4: for every non-empty item list, positive viewport, and sequence of
up/down key events applied from the initial state
`selected_index = top_index = 0`, the §3 invariants hold after the whole
sequence (every prefix of an up/down sequence is again such a sequence, so
they hold after every transition). -/
theorem c4_updown_invariants (len maxLines : Nat) (hlen : 0 < len)
    (hV : 0 < maxLines) (ks : List Key)
    (hud : ∀ k ∈ ks, k = Key.up ∨ k = Key.down) :
    SelInv len maxLines (ks.foldl (navStep len maxLines) ⟨0, 0⟩) := by
  refine selInv_foldl len maxLines hV ks ⟨0, 0⟩ ?_ hud
  exact ⟨hlen, Nat.le_refl 0, by simpa using hV⟩

/-- Witness for C4 with 3 items, 2 visible rows and events down, down, up. -/
theorem c4_updown_invariants_witness :
    0 < 3 ∧ 0 < 2 ∧
    (∀ k ∈ [Key.down, Key.down, Key.up], k = Key.up ∨ k = Key.down) ∧
    SelInv 3 2 ([Key.down, Key.down, Key.up].foldl (navStep 3 2) ⟨0, 0⟩) :=
  ⟨by decide, by decide, by decide,
    c4_updown_invariants 3 2 (by decide) (by decide) _ (by decide)⟩

/-- C7: calling the selector with an empty item list returns the
cancellation sentinel (`-1`) immediately, reading zero keys, for every key
sequence that might be pending. -/
theorem c7_empty_cancel (maxLines : Nat) (keys : List Key) :
    scrollable_select maxLines [] keys = some (SelResult.cancelled, 0) := rfl

/-- C9: on a non-empty item list, any key sequence ending in a terminating
key (enter, `q` or ESC) makes `scrollable_select` return, and the result is
either cancellation (Python `-1`) or an index `i < len(items)`; callers
indexing with a non-negative result therefore never go out of bounds. -/
theorem c9_select_in_bounds (items : List String) (maxLines : Nat)
    (ks : List Key) (k : Key) (hne : items ≠ []) (hk : k.isTerminal = true) :
    resultOk items.length (scrollable_select maxLines items (ks ++ [k])) := by
  unfold scrollable_select
  rw [if_neg (by simpa using hne)]
  exact selLoop_ok items.length maxLines k hk ks ⟨0, 0⟩
    (by simpa using List.length_pos.2 hne)

/-- Witness for C9 with items `["a", "b"]` and keys down, enter. -/
theorem c9_select_in_bounds_witness :
    (["a", "b"] : List String) ≠ [] ∧ Key.enter.isTerminal = true ∧
    resultOk (["a", "b"] : List String).length
      (scrollable_select 5 ["a", "b"] ([Key.down] ++ [Key.enter])) :=
  ⟨by decide, by decide,
    c9_select_in_bounds ["a", "b"] 5 [Key.down] Key.enter (by decide) (by decide)⟩

/-! ## Helper lemmas: progress indicator -/

unseal Rat.mul Rat.inv Rat.sub Rat.add in
theorem progressPercentage_self (total : Nat) (h : 0 < total) :
    progressPercentage total total = 1 := by
  unfold progressPercentage
  rw [if_pos (by omega : total ≠ 0),
    div_self (by exact_mod_cast Nat.pos_iff_ne_zero.1 h : (total : ℚ) ≠ 0)]
  decide

theorem progressPercentage_zero (current : Nat) :
    progressPercentage current 0 = 0 := by
  simp [progressPercentage]

unseal Rat.mul Rat.inv Rat.sub Rat.add in
theorem filled_length_self (total : Nat) (h : 0 < total) :
    filled_length total total 40 = 40 := by
  unfold filled_length
  rw [progressPercentage_self total h]
  decide

unseal Rat.mul Rat.inv Rat.sub Rat.add in
theorem filled_length_zero_total (current bar_length : Nat) :
    filled_length current 0 bar_length = 0 := by
  unfold filled_length
  rw [progressPercentage_zero, mul_zero]
  decide

unseal Rat.mul Rat.inv Rat.sub Rat.add in
/-- C5, counterexample: in the code's binary64 arithmetic,
`fl(fl(29/100) * 100)` rounds down to `28.999999999999996`, so at
`current = 29, total = 100` the Progress Indicator prints `"28%"` although
`floor(proportion * 100) = 29`; at `bar_width = 100` the filled-glyph count
is likewise `28`, not `floor(bar_width * proportion) = 29`. -/
theorem c5_counterexample :
    percent_text 29 100 = "28%" ∧
    (29 * 100 / 100 : Nat) = 29 ∧
    percent_text 29 100 ≠ toString ((29 * 100 / 100 : Nat) : Int) ++ "%" ∧
    filled_length 29 100 100 = 28 ∧
    (100 * 29 / 100 : Nat) = 29 := by
  decide

unseal Rat.mul Rat.inv Rat.sub Rat.add in
/-- C5, amended: the Progress Indicator computes
`filled = trunc(fl(bar_width * fl(current/total)))` filled glyphs and the
percentage text `trunc(fl(fl(current/total) * 100))` in binary64 float
arithmetic, which can fall below the exact floor formulas; the extreme
cases are exact: `current = total` (total nonzero) yields proportion 1,
hence a fully filled bar and `"100%"` at the code's bar width 40, and
`total = 0` yields proportion 0, an empty bar of any width and `"0%"`,
with no division by zero. -/
theorem c5_progress_values (current total bar_length : Nat) (h : 0 < total) :
    progressPercentage total total = 1 ∧
    filled_length total total 40 = 40 ∧
    progress_bar total total 40 = String.mk (List.replicate 40 '=') ∧
    percent_text total total = "100%" ∧
    progressPercentage current 0 = 0 ∧
    filled_length current 0 bar_length = 0 ∧
    progress_bar current 0 bar_length = String.mk (List.replicate bar_length '-') ∧
    percent_text current 0 = "0%" := by
  refine ⟨progressPercentage_self total h, filled_length_self total h, ?_, ?_,
    progressPercentage_zero current, filled_length_zero_total current bar_length,
    ?_, ?_⟩
  · unfold progress_bar
    rw [filled_length_self total h]
    simp
  · unfold percent_text
    rw [progressPercentage_self total h]
    decide
  · unfold progress_bar
    rw [filled_length_zero_total current bar_length]
    simp
  · unfold percent_text
    rw [progressPercentage_zero current]
    decide

unseal Rat.mul Rat.inv Rat.sub Rat.add in
/-- Witness for C5's amended theorem at `current = 1`, `total = 2`,
`bar_length = 7`. -/
theorem c5_progress_values_witness :
    0 < 2 ∧
    (progressPercentage 2 2 = 1 ∧
     filled_length 2 2 40 = 40 ∧
     progress_bar 2 2 40 = String.mk (List.replicate 40 '=') ∧
     percent_text 2 2 = "100%" ∧
     progressPercentage 1 0 = 0 ∧
     filled_length 1 0 7 = 0 ∧
     progress_bar 1 0 7 = String.mk (List.replicate 7 '-') ∧
     percent_text 1 0 = "0%") :=
  ⟨by decide, c5_progress_values 1 2 7 (by decide)⟩


/-! ## Helper lemmas: aggregator -/

theorem find?_map_keyPres (u : String)
    (f : String × List String → String × List String)
    (hf : ∀ p, (f p).1 = p.1) (m : TrackerMap) :
    (m.map f).find? (fun p => p.1 == u) = (m.find? (fun p => p.1 == u)).map f := by
  induction m with
  | nil => rfl
  | cons p m ih =>
    by_cases hpu : (p.1 == u) = true
    · have hpu' : ((f p).1 == u) = true := by rw [hf p]; exact hpu
      simp only [List.map_cons, List.find?_cons, hpu, hpu']
      rfl
    · have hpu2 : (p.1 == u) = false := by simpa using hpu
      have hpu' : ((f p).1 == u) = false := by rw [hf p]; exact hpu2
      simp only [List.map_cons, List.find?_cons, hpu2, hpu']
      exact ih

theorem mapGet_mapAppend (m : TrackerMap) (url h u : String) :
    mapGet (mapAppend m url h) u =
      if u = url then mapGet m u ++ [h] else mapGet m u := by
  unfold mapAppend
  by_cases hmem : m.any (fun p => p.1 == url) = true
  · rw [if_pos hmem]
    unfold mapGet
    rw [find?_map_keyPres u _
      (fun p => by by_cases hc : (p.1 == url) = true <;> simp [hc]) m]
    cases hf : m.find? (fun p => p.1 == u) with
    | none =>
      by_cases huu : u = url
      · subst huu
        rw [List.find?_eq_none] at hf
        rcases List.any_eq_true.1 hmem with ⟨p, hp, hpu⟩
        exact absurd hpu (hf p hp)
      · simp [huu]
    | some p =>
      have hp1 : p.1 = u := by simpa using List.find?_some hf
      by_cases huu : u = url
      · subst huu
        simp [hp1]
      · simp [hp1, huu]
  · rw [if_neg hmem]
    unfold mapGet
    rw [List.find?_append]
    simp only [List.any_eq_true, not_exists, not_and] at hmem
    by_cases huu : u = url
    · subst huu
      have hf : m.find? (fun p => p.1 == u) = none :=
        List.find?_eq_none.2 (fun p hp => by simpa using hmem p hp)
      simp [hf, List.find?]
    · have hne : ((url, [h]).1 == u) = false := by
        simp [Ne.symm huu]
      cases hf : m.find? (fun p => p.1 == u) <;>
        simp [hf, hne, List.find?, huu]

theorem mapGet_foldl_urls (hsh u : String) :
    ∀ (urls : List String) (m : TrackerMap),
      mapGet (urls.foldl (fun acc url => mapAppend acc url hsh) m) u =
        mapGet m u ++ List.replicate (urls.count u) hsh := by
  intro urls
  induction urls with
  | nil => intro m; simp
  | cons url urls ih =>
    intro m
    simp only [List.foldl_cons]
    rw [ih, mapGet_mapAppend]
    by_cases huu : u = url
    · simp [huu, List.count_cons, List.replicate_succ, List.append_assoc]
    · simp [huu, List.count_cons, Ne.symm huu]

theorem mapGet_aggRun (lookup : String → List String) (total : Nat) (u : String) :
    ∀ (ts : List Torrent) (idx : Nat) (m : TrackerMap),
      mapGet (aggRun lookup total idx ts m).1 u =
        mapGet m u ++
          (ts.map (fun t => List.replicate ((lookup t.hash).count u) t.hash)).flatten := by
  intro ts
  induction ts with
  | nil => intro idx m; simp [aggRun]
  | cons t ts ih =>
    intro idx m
    simp only [aggRun]
    rw [ih, mapGet_foldl_urls]
    simp [List.append_assoc]

theorem mapAppend_values_ne_nil (m : TrackerMap) (url hsh : String)
    (hm : ∀ p ∈ m, p.2 ≠ []) : ∀ p ∈ mapAppend m url hsh, p.2 ≠ [] := by
  unfold mapAppend
  split
  · intro p hp
    rcases List.mem_map.1 hp with ⟨q, hq, rfl⟩
    by_cases hc : (q.1 == url) = true
    · simp [hc]
    · have hc2 : (q.1 == url) = false := by simpa using hc
      simpa [hc2] using hm q hq
  · intro p hp
    rcases List.mem_append.1 hp with hp | hp
    · exact hm p hp
    · rcases List.mem_singleton.1 hp with rfl
      simp

theorem foldl_values_ne_nil (hsh : String) :
    ∀ (urls : List String) (m : TrackerMap), (∀ p ∈ m, p.2 ≠ []) →
      ∀ p ∈ urls.foldl (fun acc url => mapAppend acc url hsh) m, p.2 ≠ [] := by
  intro urls
  induction urls with
  | nil => intro m hm; exact hm
  | cons url urls ih =>
    intro m hm
    simp only [List.foldl_cons]
    exact ih _ (mapAppend_values_ne_nil m url hsh hm)

theorem aggRun_values_ne_nil (lookup : String → List String) (total : Nat) :
    ∀ (ts : List Torrent) (idx : Nat) (m : TrackerMap), (∀ p ∈ m, p.2 ≠ []) →
      ∀ p ∈ (aggRun lookup total idx ts m).1, p.2 ≠ [] := by
  intro ts
  induction ts with
  | nil => intro idx m hm; exact hm
  | cons t ts ih =>
    intro idx m hm
    exact ih _ _ (foldl_values_ne_nil t.hash (lookup t.hash) m hm)

theorem aggRun_trace_length (lookup : String → List String) (total : Nat) :
    ∀ (ts : List Torrent) (idx : Nat) (m : TrackerMap),
      (aggRun lookup total idx ts m).2.length = 2 * ts.length := by
  intro ts
  induction ts with
  | nil => intro idx m; simp [aggRun]
  | cons t ts ih =>
    intro idx m
    simp only [aggRun, List.length_cons]
    rw [ih]
    omega

theorem aggRun_trace_get (lookup : String → List String) (total : Nat) :
    ∀ (ts : List Torrent) (i : Nat), i < ts.length →
      ∀ (idx : Nat) (m : TrackerMap),
        (aggRun lookup total idx ts m).2[2 * i]? = some (.draw (idx + i) total) ∧
        (aggRun lookup total idx ts m).2[2 * i + 1]? =
          (ts[i]?).map (fun t => .lookupEv (idx + i) t.hash) := by
  intro ts
  induction ts with
  | nil => intro i hi; simp at hi
  | cons t ts ih =>
    intro i hi idx m
    cases i with
    | zero => simp [aggRun]
    | succ i =>
      have hi' : i < ts.length := by
        simp only [List.length_cons] at hi
        omega
      have h2 : 2 * (i + 1) = 2 * i + 1 + 1 := by omega
      rw [h2]
      have heq : idx + (i + 1) = idx + 1 + i := by omega
      rw [heq]
      simp only [aggRun, List.getElem?_cons_succ]
      exact ih i hi' (idx + 1) _

/-- C2, counterexample: with a single record, the aggregation trace is
`[draw 1 1, lookupEv 1 "h1"]`: the progress-bar draw of a record happens
BEFORE that record's tracker lookup, so the lookup does not precede the
draw as the claim requires. -/
theorem c2_counterexample :
    aggTrace (fun _ => ["x"]) [⟨"h1", "n1"⟩] =
      [AggEvent.draw 1 1, AggEvent.lookupEv 1 "h1"] ∧
    ¬ ((aggTrace (fun _ => ["x"]) [⟨"h1", "n1"⟩]).indexOf (AggEvent.lookupEv 1 "h1") <
       (aggTrace (fun _ => ["x"]) [⟨"h1", "n1"⟩]).indexOf (AggEvent.draw 1 1)) := by
  decide

/-- C2, amended: records are processed sequentially in input order with no
lookup skipped, and the progress draw for record `i` occurs immediately
BEFORE that record's tracker lookup: the trace has length `2·n`, with
`draw (i+1) n` at position `2i` and record `i`'s lookup at position
`2i + 1`. -/
theorem c2_trace_order (lookup : String → List String) (torrents : List Torrent)
    (i : Nat) (h : i < torrents.length) :
    (aggTrace lookup torrents).length = 2 * torrents.length ∧
    (aggTrace lookup torrents)[2 * i]? =
      some (AggEvent.draw (i + 1) torrents.length) ∧
    (aggTrace lookup torrents)[2 * i + 1]? =
      (torrents[i]?).map (fun t => AggEvent.lookupEv (i + 1) t.hash) := by
  unfold aggTrace
  obtain ⟨h1, h2⟩ := aggRun_trace_get lookup torrents.length torrents i h 1 []
  rw [Nat.add_comm 1 i] at h1 h2
  exact ⟨aggRun_trace_length lookup torrents.length torrents 1 [], h1, h2⟩

/-- Witness for C2's amended theorem on a one-record input. -/
theorem c2_trace_order_witness :
    0 < ([⟨"h1", "n1"⟩] : List Torrent).length ∧
    ((aggTrace (fun _ => ["x"]) [⟨"h1", "n1"⟩]).length =
       2 * ([⟨"h1", "n1"⟩] : List Torrent).length ∧
     (aggTrace (fun _ => ["x"]) [⟨"h1", "n1"⟩])[2 * 0]? =
       some (AggEvent.draw (0 + 1) ([⟨"h1", "n1"⟩] : List Torrent).length) ∧
     (aggTrace (fun _ => ["x"]) [⟨"h1", "n1"⟩])[2 * 0 + 1]? =
       (([⟨"h1", "n1"⟩] : List Torrent)[0]?).map
         (fun t => AggEvent.lookupEv (0 + 1) t.hash)) :=
  ⟨by decide, c2_trace_order (fun _ => ["x"]) [⟨"h1", "n1"⟩] 0 (by decide)⟩

/-- C6: the aggregator is order-preserving per group: the sequence stored
under any key `u` is exactly the input-order concatenation of one copy of
each record's hash per occurrence of `u` in its tracker list; two records
each reporting key "x" once yield `[A.hash, B.hash]` in input order; and the
concrete 3-parent scenario produces `{"t1": [p1, p2], "t2": [p1]}` with
sorted display order `["t1", "t2"]`. -/
theorem c6_aggregator_order (lookup : String → List String) (ts : List Torrent)
    (u : String) (lookup2 : String → List String) (A B : Torrent)
    (hA : (lookup2 A.hash).count "x" = 1) (hB : (lookup2 B.hash).count "x" = 1) :
    mapGet (aggregate_trackers_for_each_torrent lookup ts) u =
      (ts.map (fun t => List.replicate ((lookup t.hash).count u) t.hash)).flatten ∧
    mapGet (aggregate_trackers_for_each_torrent lookup2 [A, B]) "x" =
      [A.hash, B.hash] ∧
    aggregate_trackers_for_each_torrent scenarioLookup scenarioTorrents =
      [("t1", ["p1", "p2"]), ("t2", ["p1"])] ∧
    displayedKeys
        (aggregate_trackers_for_each_torrent scenarioLookup scenarioTorrents) =
      ["t1", "t2"] := by
  have hgen : ∀ (lk : String → List String) (ts' : List Torrent) (u' : String),
      mapGet (aggregate_trackers_for_each_torrent lk ts') u' =
        (ts'.map (fun t => List.replicate ((lk t.hash).count u') t.hash)).flatten := by
    intro lk ts' u'
    unfold aggregate_trackers_for_each_torrent
    rw [mapGet_aggRun]
    simp [mapGet]
  refine ⟨hgen lookup ts u, ?_, by decide, by decide⟩
  rw [hgen lookup2 [A, B] "x"]
  simp [hA, hB]

/-- Witness for C6 with two single-"x" records. -/
theorem c6_aggregator_order_witness :
    (((fun _ => ["x"]) (Torrent.mk "a" "na").hash : List String).count "x" = 1) ∧
    (((fun _ => ["x"]) (Torrent.mk "b" "nb").hash : List String).count "x" = 1) ∧
    (mapGet (aggregate_trackers_for_each_torrent scenarioLookup scenarioTorrents) "t1" =
       (scenarioTorrents.map (fun t =>
         List.replicate ((scenarioLookup t.hash).count "t1") t.hash)).flatten ∧
     mapGet (aggregate_trackers_for_each_torrent (fun _ => ["x"])
         [Torrent.mk "a" "na", Torrent.mk "b" "nb"]) "x" =
       [(Torrent.mk "a" "na").hash, (Torrent.mk "b" "nb").hash] ∧
     aggregate_trackers_for_each_torrent scenarioLookup scenarioTorrents =
       [("t1", ["p1", "p2"]), ("t2", ["p1"])] ∧
     displayedKeys
         (aggregate_trackers_for_each_torrent scenarioLookup scenarioTorrents) =
       ["t1", "t2"]) :=
  ⟨by decide, by decide,
    c6_aggregator_order scenarioLookup scenarioTorrents "t1" (fun _ => ["x"])
      (Torrent.mk "a" "na") (Torrent.mk "b" "nb") (by decide) (by decide)⟩

/-- C10: in the map returned by the aggregator every key maps to a non-empty
list of hashes, and the list under any key `u` consists exactly of the
hashes of the records whose lookup reported `u`, in input order, one copy
per occurrence (a lookup listing `u` twice contributes the hash twice). -/
theorem c10_aggregate_values (lookup : String → List String) (ts : List Torrent) :
    (∀ p ∈ aggregate_trackers_for_each_torrent lookup ts, p.2 ≠ []) ∧
    (∀ u, mapGet (aggregate_trackers_for_each_torrent lookup ts) u =
      (ts.map (fun t => List.replicate ((lookup t.hash).count u) t.hash)).flatten) := by
  constructor
  · exact aggRun_values_ne_nil lookup ts.length ts 1 [] (by simp)
  · intro u
    unfold aggregate_trackers_for_each_torrent
    rw [mapGet_aggRun]
    simp [mapGet]

/-! ## Helper lemmas: URL parsing -/

theorem takeWhile_middle {α : Type} (p : α → Bool) :
    ∀ (l₁ : List α) (a : α) (l₂ : List α),
      (∀ c ∈ l₁, p c = true) → p a = false →
      (l₁ ++ a :: l₂).takeWhile p = l₁ := by
  intro l₁
  induction l₁ with
  | nil =>
    intro a l₂ _ ha
    simp [List.takeWhile, ha]
  | cons c l₁ ih =>
    intro a l₂ hl ha
    have hc : p c = true := hl c (List.mem_cons_self c l₁)
    have ih' := ih a l₂ (fun c' hc' => hl c' (List.mem_cons_of_mem _ hc')) ha
    simp [List.takeWhile_cons, hc, ih']

theorem drop_after {α : Type} :
    ∀ (l₁ : List α) (a : α) (l₂ : List α),
      (l₁ ++ a :: l₂).drop (l₁.length + 1) = l₂ := by
  intro l₁
  induction l₁ with
  | nil => intro a l₂; simp
  | cons c l₁ ih => intro a l₂; simp [ih a l₂]

theorem takeWhile_concat_neg {α : Type} (p : α → Bool) (a : α) (h : p a = false) :
    ∀ (l : List α), (l ++ [a]).takeWhile p = l.takeWhile p := by
  intro l
  induction l with
  | nil => simp [List.takeWhile, h]
  | cons c l ih =>
    simp only [List.cons_append, List.takeWhile_cons]
    cases hc : p c
    · rfl
    · rw [ih]

theorem dropWhile_head_false {α : Type} (p : α → Bool) :
    ∀ (l : List α) (c : α) (t : List α), l.dropWhile p = c :: t → p c = false := by
  intro l
  induction l with
  | nil => intro c t h; simp [List.dropWhile] at h
  | cons a l ih =>
    intro c t h
    rw [List.dropWhile_cons] at h
    by_cases hpa : p a = true
    · rw [if_pos hpa] at h
      exact ih c t h
    · rw [if_neg hpa] at h
      cases h
      simp at hpa
      exact hpa

theorem dropWhile_length {α : Type} (p : α → Bool) (l : List α) :
    (l.dropWhile p).length = l.length - (l.takeWhile p).length := by
  have h := @List.takeWhile_append_dropWhile α p l
  have := congrArg List.length h
  simp only [List.length_append] at this
  omega

theorem schemeChar_ne_colon (c : Char) (hc : isSchemeChar c = true) :
    (c != ':') = true := by
  by_cases h : c = ':'
  · subst h
    simp [isSchemeChar] at hc
  · simp [h]

theorem shape_parseOk : ∀ w, ParseShape w → parseOk w := by
  intro w hw
  obtain ⟨pre, d, r', rfl, hne, halpha, hall, hd, hbr⟩ := hw
  have hallc : ∀ c ∈ pre, (c != ':') = true := fun c hc =>
    schemeChar_ne_colon c (by simpa using List.all_eq_true.1 hall c hc)
  have htake : ((pre ++ ':' :: '/' :: '/' :: d :: r').takeWhile (fun c => c != ':')) = pre :=
    takeWhile_middle _ pre ':' _ hallc (by simp)
  have h1 : pre.length < (pre ++ ':' :: '/' :: '/' :: d :: r').length := by
    simp [List.length_append]
  have h2 : (!pre.isEmpty) = true := by simp [hne]
  have hcond : (decide (pre.length < (pre ++ ':' :: '/' :: '/' :: d :: r').length) &&
      !pre.isEmpty && (pre.headD ' ').isAlpha && pre.all isSchemeChar) = true := by
    simp only [Bool.and_eq_true, decide_eq_true_eq]
    exact ⟨⟨⟨h1, h2⟩, halpha⟩, hall⟩
  have hdt : (!netlocDelim d) = true := by simp [hd]
  refine ⟨⟨pre.map Char.toLower, d :: r'.takeWhile (fun c => !netlocDelim c)⟩, ?_, ?_, ?_⟩
  · unfold parseResult splitScheme
    rw [htake, if_pos hcond, drop_after]
    simp [splitNetloc, List.takeWhile_cons, hdt, hbr]
  · simp [hne]
  · simp

theorem splitNetloc_some_ne (rest : List Char) (nl : List Char)
    (h : splitNetloc rest = some nl) (hne : nl ≠ []) :
    ∃ d r', rest = '/' :: '/' :: d :: r' ∧ netlocDelim d = false ∧
      nl = d :: r'.takeWhile (fun c => !netlocDelim c) ∧ bracketBad nl = false := by
  rcases rest with _ | ⟨c1, _ | ⟨c2, r⟩⟩
  · simp [splitNetloc] at h
    exact absurd h hne
  · simp [splitNetloc] at h
    exact absurd h hne
  · by_cases hslash : c1 = '/' ∧ c2 = '/'
    · obtain ⟨rfl, rfl⟩ := hslash
      simp only [splitNetloc, if_pos (And.intro rfl rfl)] at h
      rcases r with _ | ⟨d, r'⟩
      · simp at h
        exact absurd h.2 hne
      · by_cases hdd : (!netlocDelim d) = true
        · rw [List.takeWhile_cons] at h
          simp only [hdd, if_pos] at h
          by_cases hbr : bracketBad (d :: List.takeWhile (fun c => !netlocDelim c) r') = true
          · rw [if_pos hbr] at h
            exact absurd h (by simp)
          · rw [if_neg hbr] at h
            refine ⟨d, r', rfl, by simpa using hdd, by simpa using h.symm, ?_⟩
            rw [← Option.some_inj.1 h]
            simpa using hbr
        · rw [List.takeWhile_cons] at h
          simp only [Bool.not_eq_true] at hdd
          simp [hdd] at h
          exact absurd h.2 hne
    · simp only [splitNetloc, if_neg hslash] at h
      exact absurd (Option.some_inj.1 h).symm hne

theorem splitScheme_cases (w : List Char) :
    (splitScheme w).1 = [] ∧ (splitScheme w).2 = w ∨
    ∃ pre, w = pre ++ ':' :: (splitScheme w).2 ∧
      (splitScheme w).1 = pre.map Char.toLower ∧
      pre ≠ [] ∧ (pre.headD ' ').isAlpha = true ∧ pre.all isSchemeChar = true := by
  unfold splitScheme
  by_cases hcond : (decide ((w.takeWhile (fun c => c != ':')).length < w.length) &&
      !(w.takeWhile (fun c => c != ':')).isEmpty &&
      ((w.takeWhile (fun c => c != ':')).headD ' ').isAlpha &&
      (w.takeWhile (fun c => c != ':')).all isSchemeChar) = true
  · rw [if_pos hcond]
    right
    simp only [Bool.and_eq_true, decide_eq_true_eq] at hcond
    obtain ⟨⟨⟨hlen, hne0⟩, halpha⟩, hall⟩ := hcond
    have hsplit := @List.takeWhile_append_dropWhile Char (fun c => c != ':') w
    have hlen2 := dropWhile_length (fun c => c != ':') w
    refine ⟨w.takeWhile (fun c => c != ':'), ?_, rfl, by simpa using hne0, halpha, hall⟩
    cases hdw : w.dropWhile (fun c => c != ':') with
    | nil =>
      rw [hdw] at hlen2
      simp at hlen2
      omega
    | cons c t =>
      have hc : (c != ':') = false := dropWhile_head_false _ w c t hdw
      have hc' : c = ':' := by simpa using hc
      subst hc'
      rw [hdw] at hsplit
      have hdrop : w.drop ((w.takeWhile (fun c => c != ':')).length + 1) = t := by
        nth_rewrite 2 [← hsplit]
        exact drop_after _ ':' t
      rw [hdrop, hsplit]
  · rw [if_neg hcond]
    left
    exact ⟨rfl, rfl⟩

theorem parseOk_shape : ∀ w, parseOk w → ParseShape w := by
  intro w hw
  obtain ⟨p, hp, hs, hn⟩ := hw
  unfold parseResult at hp
  rcases splitScheme_cases w with ⟨hsch, _⟩ | ⟨pre, hdecomp, hsch, hne0, halpha, hall⟩
  · rcases hnl : splitNetloc (splitScheme w).2 with _ | nl
    · rw [hnl] at hp
      simp at hp
    · rw [hnl] at hp
      simp only [Option.some_inj] at hp
      rw [← hp, hsch] at hs
      simp at hs
  · rcases hnl : splitNetloc (splitScheme w).2 with _ | nl
    · rw [hnl] at hp
      simp at hp
    · rw [hnl] at hp
      simp only [Option.some_inj] at hp
      have hnl_ne : nl ≠ [] := by
        intro hcon
        rw [← hp, hcon] at hn
        exact hn rfl
      obtain ⟨d, r', hrest, hd, hnl_eq, hbr⟩ :=
        splitNetloc_some_ne (splitScheme w).2 nl hnl hnl_ne
      refine ⟨pre, d, r', ?_, hne0, halpha, hall, hd, ?_⟩
      · rw [hdecomp, hrest]
      · rw [← hnl_eq]
        exact hbr

theorem shape_peel (x : List Char) (h : ParseShape (x ++ ['/'])) : ParseShape x := by
  obtain ⟨pre, d, r', heq, hne, halpha, hall, hd, hbr⟩ := h
  have hr' : r' ≠ [] := by
    intro hcon
    subst hcon
    have heq2 : x ++ ['/'] = (pre ++ [':', '/', '/']) ++ [d] := by
      rw [heq]
      simp
    have hlast := congrArg List.getLast? heq2
    rw [List.getLast?_concat, List.getLast?_concat] at hlast
    have hd' : d = '/' := by simpa using hlast.symm
    subst hd'
    simp [netlocDelim] at hd
  obtain ⟨r'', c, hrc⟩ := (List.eq_nil_or_concat r').resolve_left hr'
  rw [List.concat_eq_append] at hrc
  rw [hrc] at heq hbr
  have heq2 : x ++ ['/'] = (pre ++ ':' :: '/' :: '/' :: d :: r'') ++ [c] := by
    rw [heq]
    simp
  obtain ⟨hx, hc⟩ := List.append_inj' heq2 (by simp)
  have hc' : c = '/' := by
    have := hc.symm
    simpa using this
  subst hc'
  refine ⟨pre, d, r'', hx, hne, halpha, hall, hd, ?_⟩
  rw [takeWhile_concat_neg _ '/' (by simp [netlocDelim]) r''] at hbr
  exact hbr

theorem shape_peel_replicate :
    ∀ (k : Nat) (x : List Char),
      ParseShape (x ++ List.replicate k '/') → ParseShape x := by
  intro k
  induction k with
  | zero => intro x h; simpa using h
  | succ k ih =>
    intro x h
    rw [List.replicate_succ', ← List.append_assoc] at h
    exact ih x (shape_peel _ h)

theorem shape_ne_nil (h : ParseShape []) : False := by
  obtain ⟨pre, d, r', heq, -, -, -, -, -⟩ := h
  have := congrArg List.length heq
  simp [List.length_append] at this
  omega

theorem validate_eq_true (v : List Char) (m : String)
    (h : validate_url v = some (true, m)) :
    m = "" ∧ v ≠ [] ∧ ParseShape (cleanUrlChars v) := by
  unfold validate_url at h
  by_cases hv : v.isEmpty = true
  · rw [if_pos hv] at h
    simp at h
  · rw [if_neg hv] at h
    rcases hpu : pyUrlparse v with _ | p
    · rw [hpu] at h
      simp at h
    · rw [hpu] at h
      dsimp only at h
      by_cases hsch : p.scheme.isEmpty = true
      · rw [if_pos hsch] at h
        simp at h
      · rw [if_neg hsch] at h
        by_cases hnet : p.netloc.isEmpty = true
        · rw [if_pos hnet] at h
          simp at h
        · rw [if_neg hnet] at h
          have hm : m = "" := by
            have h2 := Option.some_inj.1 h
            exact (congrArg Prod.snd h2).symm
          refine ⟨hm, by simpa [List.isEmpty_iff] using hv, ?_⟩
          exact parseOk_shape _ ⟨p, hpu, by simpa [List.isEmpty_iff] using hsch,
            by simpa [List.isEmpty_iff] using hnet⟩

theorem validate_of_shape (v : List Char) (hv : v ≠ [])
    (hs : ParseShape (cleanUrlChars v)) : validate_url v = some (true, "") := by
  obtain ⟨p, hp, hs1, hn1⟩ := shape_parseOk _ hs
  unfold validate_url
  rw [if_neg (by simpa [List.isEmpty_iff] using hv)]
  unfold pyUrlparse
  rw [hp]
  dsimp only
  rw [if_neg (by simpa [List.isEmpty_iff] using hs1)]
  rw [if_neg (by simpa [List.isEmpty_iff] using hn1)]

theorem rstrip_decomp (s : List Char) :
    ∃ k, s = rstripSlashes s ++ List.replicate k '/' := by
  refine ⟨(s.reverse.takeWhile (fun c => c == '/')).length, ?_⟩
  have hsplit := @List.takeWhile_append_dropWhile Char (fun c => c == '/') s.reverse
  have htw : s.reverse.takeWhile (fun c => c == '/') =
      List.replicate (s.reverse.takeWhile (fun c => c == '/')).length '/' :=
    List.eq_replicate_of_mem (fun b hb => by simpa using List.mem_takeWhile_imp hb)
  calc s = s.reverse.reverse := by simp
    _ = ((s.reverse.takeWhile (fun c => c == '/')) ++
          (s.reverse.dropWhile (fun c => c == '/'))).reverse := by rw [hsplit]
    _ = (s.reverse.dropWhile (fun c => c == '/')).reverse ++
          (s.reverse.takeWhile (fun c => c == '/')).reverse := by
        rw [List.reverse_append]
    _ = rstripSlashes s ++ List.replicate
          (s.reverse.takeWhile (fun c => c == '/')).length '/' := by
        rw [rstripSlashes]
        rw [htw]
        simp

theorem rstrip_getLast (s : List Char) :
    (rstripSlashes s).getLast? ≠ some '/' := by
  unfold rstripSlashes
  rw [List.getLast?_reverse]
  cases hdw : s.reverse.dropWhile (fun c => c == '/') with
  | nil => simp
  | cons c t =>
    have hc := dropWhile_head_false _ _ _ _ hdw
    simp only [List.head?_cons, ne_eq, Option.some_inj]
    intro hcon
    subst hcon
    simp at hc

theorem clean_replicate_slash (k : Nat) :
    cleanUrlChars (List.replicate k '/') = List.replicate k '/' := by
  induction k with
  | zero => rfl
  | succ k ih =>
    rw [List.replicate_succ]
    simp only [cleanUrlChars, List.filter_cons] at ih ⊢
    rw [ih]
    rfl

theorem validate_rstrip (v : List Char) (h : validate_url v = some (true, "")) :
    validate_url (rstripSlashes v) = some (true, "") := by
  obtain ⟨-, hv, hshape⟩ := validate_eq_true v "" h
  obtain ⟨k, hk⟩ := rstrip_decomp v
  have hclean : cleanUrlChars v =
      cleanUrlChars (rstripSlashes v) ++ List.replicate k '/' := by
    conv_lhs => rw [hk]
    rw [cleanUrlChars, List.filter_append, ← cleanUrlChars, ← cleanUrlChars,
      clean_replicate_slash]
  rw [hclean] at hshape
  have hshape' : ParseShape (cleanUrlChars (rstripSlashes v)) :=
    shape_peel_replicate k _ hshape
  have hne : rstripSlashes v ≠ [] := by
    intro hcon
    rw [hcon] at hshape'
    exact shape_ne_nil (by simpa [cleanUrlChars] using hshape')
  exact validate_of_shape _ hne hshape'

/-- C8: if `normalize_url(u, s)` returns a non-empty string `r`, then
`validate_url(r)` returns `(True, "")` and `r` does not end with `'/'`;
and whenever `validate_url(u)` already returns `True`, `normalize_url(u, s)`
is `u` with all trailing `'/'` removed. -/
theorem c8_normalize_validate (u s r : List Char) :
    (normalize_url u s = some r → r ≠ [] →
      validate_url r = some (true, "") ∧ r.getLast? ≠ some '/') ∧
    (validate_url u = some (true, "") → normalize_url u s = some (rstripSlashes u)) := by
  constructor
  · intro hnorm hr
    unfold normalize_url at hnorm
    by_cases hu : u.isEmpty = true
    · rw [if_pos hu] at hnorm
      have h0 : some ([] : List Char) = some r := hnorm
      exact absurd (Option.some_inj.1 h0).symm hr
    · rw [if_neg hu] at hnorm
      rcases hval : validate_url u with _ | ⟨b, m⟩
      · rw [hval] at hnorm
        simp at hnorm
      · rw [hval] at hnorm
        cases b with
        | true =>
          have h2 : some (rstripSlashes u) = some r := hnorm
          have hru : r = rstripSlashes u := (Option.some_inj.1 h2).symm
          obtain ⟨hm, -, -⟩ := validate_eq_true u m hval
          subst hm
          subst hru
          exact ⟨validate_rstrip u hval, rstrip_getLast u⟩
        | false =>
          try dsimp only at hnorm
          rcases hpu : pyUrlparse u with _ | p
          · rw [hpu] at hnorm
            simp at hnorm
          · rw [hpu] at hnorm
            try dsimp only at hnorm
            by_cases hsch : p.scheme.isEmpty = true
            · rw [if_pos hsch] at hnorm
              try dsimp only at hnorm
              rcases hval2 : validate_url (s ++ ':' :: '/' :: '/' :: u) with _ | ⟨b2, m2⟩
              · rw [hval2] at hnorm
                simp at hnorm
              · rw [hval2] at hnorm
                cases b2 with
                | true =>
                  have h2 : some (rstripSlashes (s ++ ':' :: '/' :: '/' :: u)) = some r :=
                    hnorm
                  have hru : r = rstripSlashes (s ++ ':' :: '/' :: '/' :: u) :=
                    (Option.some_inj.1 h2).symm
                  obtain ⟨hm, -, -⟩ := validate_eq_true _ m2 hval2
                  subst hm
                  subst hru
                  exact ⟨validate_rstrip _ hval2, rstrip_getLast _⟩
                | false =>
                  have h2 : some ([] : List Char) = some r := hnorm
                  exact absurd (Option.some_inj.1 h2).symm hr
            · rw [if_neg hsch] at hnorm
              have h2 : some ([] : List Char) = some r := hnorm
              exact absurd (Option.some_inj.1 h2).symm hr
  · intro hval
    obtain ⟨-, hvne, -⟩ := validate_eq_true u "" hval
    unfold normalize_url
    rw [if_neg (by simpa [List.isEmpty_iff] using hvne)]
    rw [hval]

/-- Witness for C8 at `u = "http://a//"`, `s = "http"`. -/
theorem c8_normalize_validate_witness :
    normalize_url ("http://a//".toList) ("http".toList) =
      some (rstripSlashes "http://a//".toList) ∧
    validate_url (rstripSlashes "http://a//".toList) = some (true, "") ∧
    (rstripSlashes "http://a//".toList).getLast? ≠ some '/' := by
  have h := c8_normalize_validate "http://a//".toList "http".toList
    (rstripSlashes "http://a//".toList)
  have hval : validate_url ("http://a//".toList) = some (true, "") := by decide
  have hnorm := h.2 hval
  have hmain := h.1 hnorm (by decide)
  exact ⟨hnorm, hmain.1, hmain.2⟩
